import Mathlib

/-!
# artifactsdownloader: the per-job log demultiplexer

A shallow embedding of `decompressLogsPerJob` and of the exclusion closure that
`main` hands to it (`src/main.go`).  Go strings are lists of characters; the
operating system is an explicit `World` value threaded through the code: a map from
cleaned paths to nodes, an oracle of injected I/O faults, the archives that
`zip.OpenReader` can open, and a trace of the effectful calls the code makes.

The Go standard-library functions the code calls (`strings.SplitN`,
`strings.HasSuffix`, `strings.Contains`, `filepath.Join`, `filepath.Clean`,
`os.MkdirAll`, `os.OpenFile`, `io.Copy`) are modelled after their documented Unix
behaviour.  Symbolic links, the umask and the closing of handles are not modelled.
-/

namespace ArtifactsDownloader

/-- A Go string, as the list of its characters. -/
abbrev Str := List Char

/-! ## package strings -/

/-- Position of the first occurrence of the byte `sep` in `s` (`strings.IndexByte`). -/
def IndexByte : Str → Char → Option Nat
  | [], _ => none
  | c :: cs, sep => if c = sep then some 0 else (IndexByte cs sep).map (· + 1)

/-- The call `strings.SplitN(s, sep, n)` for a one-byte separator and `n ≥ 0`: at most
`n` pieces, the last one being the unsplit remainder. -/
def SplitN (s : Str) (sep : Char) : Nat → List Str
  | 0 => []
  | 1 => [s]
  | n + 2 =>
    match IndexByte s sep with
    | none => [s]
    | some m => s.take m :: SplitN (s.drop (m + 1)) sep (n + 1)

/-- The test `strings.HasSuffix(s, suffix)`. -/
def HasSuffix (s suffix : Str) : Bool :=
  decide (suffix.length ≤ s.length) && decide (s.drop (s.length - suffix.length) = suffix)

/-- The test `strings.HasPrefix(s, p)`. -/
def HasPrefix : Str → Str → Bool
  | _, [] => true
  | [], _ :: _ => false
  | c :: cs, d :: ds => decide (c = d) && HasPrefix cs ds

/-- The test `strings.Contains(s, substr)`: `substr` occurs somewhere within `s`. -/
def Contains : Str → Str → Bool
  | [], substr => HasPrefix [] substr
  | c :: cs, substr => HasPrefix (c :: cs) substr || Contains cs substr

/-! ## package path/filepath (Unix) -/

/-- The elements of a path: the pieces between separators, empty ones included. -/
def splitSep : Str → List Str
  | [] => [[]]
  | c :: cs =>
    if c = '/' then [] :: splitSep cs
    else
      match splitSep cs with
      | [] => [[c]]
      | e :: es => (c :: e) :: es

/-- Elements joined with the separator (`strings.Join(elems, "/")`). -/
def joinSep : List Str → Str
  | [] => []
  | [e] => e
  | e :: es => e ++ '/' :: joinSep es

/-- One round of the loop of `filepath.Clean`, on a whole path element.  `out` is the
output written so far as a stack of elements, the last written on top. -/
def cleanElem (rooted : Bool) (out : List Str) (e : Str) : List Str :=
  if e = [] then out                       -- empty path element
  else if e = ['.'] then out               -- . element
  else if e = ['.', '.'] then              -- .. element
    match out with
    | top :: rest =>
      if top = ['.', '.'] then (if rooted then out else e :: out)
      else rest                            -- can backtrack
    | [] => if rooted then out else e :: out
  else e :: out                            -- real path element

/-- The lexical cleaning `filepath.Clean(path)`. -/
def Clean (path : Str) : Str :=
  if path = [] then ['.']
  else
    let rooted := path.head? = some '/'
    let out := (splitSep path).foldl (cleanElem rooted) []
    let body := joinSep out.reverse
    if rooted then '/' :: body
    else if body = [] then ['.'] else body

/-- The call `filepath.Join(elem...)`: leading empty elements are dropped, the rest is
joined with the separator and cleaned. -/
def Join (elem : List Str) : Str :=
  match elem.dropWhile (fun e => decide (e = [])) with
  | [] => []
  | es => Clean (joinSep es)

/-- The call `filepath.Dir(path)`: everything up to the last separator, cleaned. -/
def Dir (path : Str) : Str :=
  Clean (path.reverse.dropWhile (fun c => decide (c ≠ '/'))).reverse

/-! ## the operating system -/

/-- Error values. -/
inductive Error
  | ENOENT | ENOTDIR | EISDIR | EEXIST | EACCES | ENOSPC | EBADF | ErrFormat | ErrChecksum
  deriving DecidableEq, Repr

/-- A node of the file system. -/
inductive Node
  | dir (perm : Nat)
  | file (mode : Nat) (data : List Nat)
  deriving DecidableEq, Repr

/-- The file system: what, if anything, sits at each cleaned path. -/
abbrev FS := Str → Option Node

/-- The file system with `n` put at `p`. -/
def FS.set (fs : FS) (p : Str) (n : Node) : FS :=
  fun q => if q = p then some n else fs q

/-- The system calls that an injected fault can make fail. -/
inductive Op
  | mkdir (path : Str)
  | create (path : Str)
  | write (path : Str)
  deriving DecidableEq, Repr

/-- What reading an opened archive entry delivers: the decompressed bytes, then the end
of the stream or an error. -/
structure Stream where
  data : List Nat
  err : Option Error
  deriving DecidableEq, Repr

/-- An entry of an opened archive (`*zip.File`). -/
structure ZipFile where
  Name : Str
  Mode : Nat
  Open : Except Error Stream

/-- The effectful calls of the code, in the order they happen. -/
inductive Event
  | filter (jobName : Str) (result : Bool)
  | MkdirAll (path : Str) (perm : Nat)
  | OpenFile (name : Str) (perm : Nat)
  | Open (name : Str)
  | Copy (dst : Str)
  | Printf (format : String) (err : Error)
  deriving DecidableEq, Repr

/-- The state of the world the program runs in. -/
structure World where
  fs : FS
  fault : Op → Bool
  OpenReader : Str → Except Error (List ZipFile)
  trace : List Event

/-- The world with one more event at the end of its trace. -/
def World.log (w : World) (e : Event) : World :=
  { w with trace := w.trace ++ [e] }

/-- The system call `mkdir(path, perm)`. -/
def Mkdir (fault : Op → Bool) (fs : FS) (path : Str) (perm : Nat) : FS × Option Error :=
  if fault (.mkdir path) then (fs, some .EACCES)
  else
    match fs path with
    | some _ => (fs, some .EEXIST)
    | none =>
      match fs (Dir path) with
      | some (.dir _) => (fs.set path (.dir perm), none)
      | some (.file _ _) => (fs, some .ENOTDIR)
      | none => (fs, some .ENOENT)

/-- The prefixes of `path` that end right before a separator or at the end of the path,
the empty one left out, shortest first; `acc` is the part already read. -/
def prefixesAux (acc : Str) : Str → List Str
  | [] => if acc = [] then [] else [acc]
  | c :: cs =>
    if c = '/' then
      (if acc = [] then [] else [acc]) ++ prefixesAux (acc ++ [c]) cs
    else prefixesAux (acc ++ [c]) cs

/-- The recursion of `os.MkdirAll` over a path and its ancestors, nearest first: a
directory that is there ends it with success, a file with `ENOTDIR`, and a missing one
is made once its parent has been. -/
def mkdirAllAux (fault : Op → Bool) (perm : Nat) : List Str → FS → FS × Option Error
  | [], fs => (fs, none)
  | p :: ps, fs =>
    match fs p with
    | some (.dir _) => (fs, none)
    | some (.file _ _) => (fs, some .ENOTDIR)
    | none =>
      match mkdirAllAux fault perm ps fs with
      | (fs1, some err) => (fs1, some err)
      | (fs1, none) => Mkdir fault fs1 p perm

/-- The call `os.MkdirAll(path, perm)`. -/
def MkdirAll (w : World) (path : Str) (perm : Nat) : World × Option Error :=
  let w := w.log (.MkdirAll path perm)
  let r := mkdirAllAux w.fault perm (prefixesAux [] path).reverse w.fs
  ({ w with fs := r.1 }, r.2)

/-- The call `os.OpenFile(name, os.O_WRONLY|os.O_CREATE|os.O_TRUNC, perm)`, made by the
unprivileged owner of the files: an existing file is truncated and keeps its mode when
its mode lets the owner write (bit `0o200`) and is refused with `EACCES` otherwise, a
missing one is created with `perm` when its parent directory exists.  The handle
returned is the path of the file. -/
def OpenFile (w : World) (name : Str) (perm : Nat) : World × Except Error Str :=
  let w := w.log (.OpenFile name perm)
  if w.fault (.create name) then (w, .error .EACCES)
  else
    match w.fs name with
    | some (.dir _) => (w, .error .EISDIR)
    | some (.file mode _) =>
      if mode &&& 0o200 = 0 then (w, .error .EACCES)
      else ({ w with fs := w.fs.set name (.file mode []) }, .ok name)
    | none =>
      match w.fs (Dir name) with
      | some (.dir _) => ({ w with fs := w.fs.set name (.file perm []) }, .ok name)
      | some (.file _ _) => (w, .error .ENOTDIR)
      | none => (w, .error .ENOENT)

/-- The call `io.Copy(dst, src)`: the bytes the stream delivers are appended to the
destination file, and the error that ended the stream, if any, is returned.  A write
fault (`ENOSPC`) leaves the file as it was; a handle that is not a file is `EBADF`. -/
def Copy (w : World) (dst : Str) (src : Stream) : World × Option Error :=
  let w := w.log (.Copy dst)
  if w.fault (.write dst) then (w, some .ENOSPC)
  else
    match w.fs dst with
    | some (.file mode old) =>
      ({ w with fs := w.fs.set dst (.file mode (old ++ src.data)) }, src.err)
    | _ => (w, some .EBADF)

/-! ## main.go -/

/-- The closure that `main` passes to `decompressLogsPerJob` (lines 98-105), for the
list `failedJobs` it has captured. -/
def mainFilter (failedJobs : List Str) (jobName : Str) : Bool :=
  match failedJobs with
  | [] => true                                   -- Include this job
  | failedName :: rest =>
    if Contains jobName failedName then false     -- Filter out this job
    else mainFilter rest jobName

/-- The body of the loop of `decompressLogsPerJob` (lines 183-218) for the entry `f`;
every `continue` is the end of the body. -/
def loopBody (filter : Str → Bool) (f : ZipFile) (w : World) : World :=
  let parts := SplitN f.Name '/' 2
  if parts.length < 2 then w
  else
    let jobName := parts.getD 0 []
    let fileName := parts.getD 1 []
    if fileName = [] || HasSuffix fileName ['/'] then w
    else
      let w := w.log (.filter jobName (filter jobName))
      if filter jobName then w
      else
        let jobDir := Join ["logs".toList, jobName]
        match MkdirAll w jobDir 0o755 with
        | (w, some err) => w.log (.Printf "Error creating job dir: %v\n" err)
        | (w, none) =>
          let destPath := Join [jobDir, fileName]
          match OpenFile w destPath f.Mode with
          | (w, .error err) => w.log (.Printf "Error creating log file: %v\n" err)
          | (w, .ok outFile) =>
            let w := w.log (.Open f.Name)
            match f.Open with
            | .error err => w.log (.Printf "Error opening zipped log: %v\n" err)
            | .ok rc =>
              match Copy w outFile rc with
              | (w, some err) => w.log (.Printf "Error extracting log file: %v\n" err)
              | (w, none) => w

/-- The loop `for _, f := range r.File` of `decompressLogsPerJob`. -/
def rangeFile (filter : Str → Bool) : List ZipFile → World → World
  | [], w => w
  | f :: fs, w => rangeFile filter fs (loopBody filter f w)

/-- The function `decompressLogsPerJob(zipPath, filter)`: the world it leaves and the
error it returns (`none` for `nil`). -/
def decompressLogsPerJob (zipPath : Str) (filter : Str → Bool) (w : World) :
    World × Option Error :=
  match w.OpenReader zipPath with
  | .error err => (w, some err)
  | .ok r => (rangeFile filter r w, none)

/-! ## the concrete scenario of the specification -/

/-- A stream of `n` zero bytes that ends without error. -/
def zeros (n : Nat) : Except Error Stream := .ok ⟨List.replicate n 0, none⟩

/-- The archive of the scenario: `build/output.log`, `build/sub/err.log`,
`test/result.xml` and the root entry `summary.json`. -/
def scenarioArchive : List ZipFile :=
  [ ⟨"build/output.log".toList, 0o644, zeros 300⟩,
    ⟨"build/sub/err.log".toList, 0o644, zeros 0⟩,
    ⟨"test/result.xml".toList, 0o644, zeros 120⟩,
    ⟨"summary.json".toList, 0o644, zeros 17⟩ ]

/-- A file system that holds nothing but the working directory. -/
def emptyFS : FS := fun p => if p = ['.'] then some (.dir 0o755) else none

/-- A world without faults whose only archive, `workflow_logs.zip`, is `r`. -/
def worldWith (r : List ZipFile) : World where
  fs := emptyFS
  fault := fun _ => false
  OpenReader := fun p => if p = "workflow_logs.zip".toList then .ok r else .error .ENOENT
  trace := []

/-- The predicate of the scenario: only the job `test` is excluded. -/
def excludeTest (jobName : Str) : Bool := decide (jobName = "test".toList)

/-- The job names the predicate was called with, in order, according to a trace. -/
def filterCalls : List Event → List Str
  | [] => []
  | .filter jobName _ :: t => jobName :: filterCalls t
  | _ :: t => filterCalls t

/-- The part of the loop body after the predicate has let the entry through
(lines 195-218), as a function of the two parts of the name. -/
def extract (f : ZipFile) (jobName fileName : Str) (w : World) : World :=
  let jobDir := Join ["logs".toList, jobName]
  match MkdirAll w jobDir 0o755 with
  | (w, some err) => w.log (.Printf "Error creating job dir: %v\n" err)
  | (w, none) =>
    let destPath := Join [jobDir, fileName]
    match OpenFile w destPath f.Mode with
    | (w, .error err) => w.log (.Printf "Error creating log file: %v\n" err)
    | (w, .ok outFile) =>
      let w := w.log (.Open f.Name)
      match f.Open with
      | .error err => w.log (.Printf "Error opening zipped log: %v\n" err)
      | .ok rc =>
        match Copy w outFile rc with
        | (w, some err) => w.log (.Printf "Error extracting log file: %v\n" err)
        | (w, none) => w

/-- An archive whose first four entries fail each in its own way (the entry cannot be
opened, its stream ends in an error, its destination cannot be opened, its job
directory cannot be made) and whose last entry is sound. -/
def faultyArchive : List ZipFile :=
  [ ⟨"a/x.log".toList, 0o644, .error .ErrFormat⟩,
    ⟨"b/y.log".toList, 0o644, .ok ⟨[1, 2], some .ErrChecksum⟩⟩,
    ⟨"c/sub/z.log".toList, 0o644, .ok ⟨[3], none⟩⟩,
    ⟨"e/w.log".toList, 0o644, .ok ⟨[9], none⟩⟩,
    ⟨"d/ok.log".toList, 0o600, .ok ⟨[4, 5, 6], none⟩⟩ ]

/-- A world whose only archive is `faultyArchive` and in which the directory `logs/e`
cannot be made. -/
def faultyWorld : World where
  fs := emptyFS
  fault := fun op => decide (op = .mkdir "logs/e".toList)
  OpenReader := fun p =>
    if p = "workflow_logs.zip".toList then .ok faultyArchive else .error .ENOENT
  trace := []

/-- The diagnostics printed, in order, according to a trace. -/
def printed : List Event → List (String × Error)
  | [] => []
  | .Printf format err :: t => (format, err) :: printed t
  | _ :: t => printed t

/-- The path `p` is `root` itself or lies beneath it: `p` starts with `root/`. -/
def Within (root p : Str) : Bool :=
  decide (p = root) || HasPrefix p (root ++ ['/'])

/-- The destination path that the loop body computes for a job name and a file name
(lines 195 and 200). -/
def destPath (jobName fileName : Str) : Str :=
  Join [Join ["logs".toList, jobName], fileName]

/-- An element that `Clean` keeps as it is: not empty, not `.` and not `..`. -/
def realElem (e : Str) : Prop := e ≠ [] ∧ e ≠ ['.'] ∧ e ≠ ['.', '.']

instance (e : Str) : Decidable (realElem e) := by
  unfold realElem
  infer_instance

/-- The stack of `Clean` once it has read the job directory of `jobName`. -/
def jobStack (jobName : Str) : List Str :=
  if jobName = [] ∨ jobName = ['.'] then [['l', 'o', 'g', 's']]
  else if jobName = ['.', '.'] then []
  else [jobName, ['l', 'o', 'g', 's']]

/-- An archive of four entries, two of them, `/a.txt` and `/b.txt`, with the empty job
name. -/
def pairArchive : List ZipFile :=
  [ ⟨"/a.txt".toList, 0o644, .ok ⟨[1], none⟩⟩,
    ⟨"other/x.log".toList, 0o644, .ok ⟨[9], none⟩⟩,
    ⟨"/b.txt".toList, 0o600, .ok ⟨[2, 3], none⟩⟩,
    ⟨"summary.json".toList, 0o644, zeros 17⟩ ]

/-- The path at which the loop body writes the entry `g`, if it gets that far: none for
an entry that is skipped or that the predicate excludes. -/
def target (filter : Str → Bool) (g : ZipFile) : Option Str :=
  match SplitN g.Name '/' 2 with
  | [jobName, fileName] =>
    if fileName = [] ∨ HasSuffix fileName ['/'] = true ∨ filter jobName = true then none
    else some (destPath jobName fileName)
  | _ => none

/-! ## strings: splitting on the first separator -/

theorem indexByte_none {s : Str} {sep : Char} : IndexByte s sep = none ↔ sep ∉ s := by
  induction s with
  | nil => simp [IndexByte]
  | cons c cs ih =>
    by_cases h : c = sep
    · simp [IndexByte, h]
    · have h2 : ¬ sep = c := fun e => h e.symm
      simp [IndexByte, h, h2, ih]

theorem indexByte_some {s : Str} {sep : Char} {m : Nat} (h : IndexByte s sep = some m) :
    sep ∉ s.take m ∧ s.take m ++ sep :: s.drop (m + 1) = s := by
  induction s generalizing m with
  | nil => simp [IndexByte] at h
  | cons c cs ih =>
    by_cases hc : c = sep
    · simp [IndexByte, hc] at h
      subst h
      simp [hc]
    · simp only [IndexByte, hc, if_false, Option.map_eq_some'] at h
      obtain ⟨k, hk, rfl⟩ := h
      have h2 : ¬ sep = c := fun e => hc e.symm
      obtain ⟨h3, h4⟩ := ih hk
      simp [h2, h3, h4]

theorem splitN_two_of_not_mem {s : Str} {sep : Char} (h : sep ∉ s) :
    SplitN s sep 2 = [s] := by
  simp [SplitN, indexByte_none.mpr h]

theorem splitN_two_of_mem {s : Str} {sep : Char} (h : sep ∈ s) :
    ∃ a b, SplitN s sep 2 = [a, b] ∧ sep ∉ a ∧ a ++ sep :: b = s := by
  cases hi : IndexByte s sep with
  | none => exact absurd h (indexByte_none.mp hi)
  | some m =>
    obtain ⟨h1, h2⟩ := indexByte_some hi
    exact ⟨s.take m, s.drop (m + 1), by simp [SplitN, hi], h1, h2⟩

theorem hasSuffix_sep {s : Str} : HasSuffix s ['/'] = true ↔ s.getLast? = some '/' := by
  induction s using List.reverseRecOn with
  | nil => simp [HasSuffix]
  | append_singleton t c =>
    simp [HasSuffix, List.getLast?_append]

/-! ## the loop body, by the shape of the entry name -/

theorem loopBody_of_one {filter : Str → Bool} {f : ZipFile} {w : World} {a : Str}
    (h : SplitN f.Name '/' 2 = [a]) : loopBody filter f w = w := by
  simp [loopBody, h]

theorem loopBody_of_two {filter : Str → Bool} {f : ZipFile} {w : World} {jobName fileName : Str}
    (h : SplitN f.Name '/' 2 = [jobName, fileName]) :
    loopBody filter f w =
      if fileName = [] ∨ HasSuffix fileName ['/'] = true then w
      else if filter jobName = true then w.log (.filter jobName (filter jobName))
      else extract f jobName fileName (w.log (.filter jobName (filter jobName))) := by
  simp only [loopBody, h, extract]
  by_cases h1 : fileName = []
  · simp [h1]
  · by_cases h2 : HasSuffix fileName ['/'] = true
    · simp [h2]
    · by_cases h3 : filter jobName = true
      · simp [h1, h2, h3]
      · simp [h1, h2, h3]

theorem filterCalls_append (s t : List Event) :
    filterCalls (s ++ t) = filterCalls s ++ filterCalls t := by
  induction s with
  | nil => rfl
  | cons e s ih => cases e <;> simp [filterCalls, ih]

theorem mkdirAll_trace (w : World) (p : Str) (perm : Nat) :
    (MkdirAll w p perm).1.trace = w.trace ++ [.MkdirAll p perm] := by
  simp [MkdirAll, World.log]

theorem openFile_trace (w : World) (p : Str) (perm : Nat) :
    (OpenFile w p perm).1.trace = w.trace ++ [.OpenFile p perm] := by
  unfold OpenFile
  simp only [World.log]
  split
  · rfl
  · split
    · rfl
    · split <;> rfl
    · split <;> rfl

theorem copy_trace (w : World) (dst : Str) (src : Stream) :
    (Copy w dst src).1.trace = w.trace ++ [.Copy dst] := by
  unfold Copy
  simp only [World.log]
  split
  · rfl
  · split <;> rfl

theorem extract_filterCalls (f : ZipFile) (jobName fileName : Str) (w : World) :
    filterCalls (extract f jobName fileName w).trace = filterCalls w.trace := by
  unfold extract
  simp only []
  split
  · next w1 err h1 =>
    have := mkdirAll_trace w (Join ["logs".toList, jobName]) 0o755
    rw [h1] at this
    simp only at this
    simp [World.log, this, filterCalls_append, filterCalls]
  · next w1 h1 =>
    have t1 := mkdirAll_trace w (Join ["logs".toList, jobName]) 0o755
    rw [h1] at t1
    simp only at t1
    split
    · next w2 err h2 =>
      have t2 := openFile_trace w1 (Join [Join ["logs".toList, jobName], fileName]) f.Mode
      rw [h2] at t2
      simp only at t2
      simp [World.log, t1, t2, filterCalls_append, filterCalls]
    · next w2 outFile h2 =>
      have t2 := openFile_trace w1 (Join [Join ["logs".toList, jobName], fileName]) f.Mode
      rw [h2] at t2
      simp only at t2
      split
      · simp [World.log, t1, t2, filterCalls_append, filterCalls]
      · next rc h3 =>
        split
        · next w3 err h4 =>
          have t3 := copy_trace (w2.log (.Open f.Name)) outFile rc
          rw [h4] at t3
          simp [World.log] at t3
          simp [World.log, t1, t2, t3, filterCalls_append, filterCalls]
        · next w3 h4 =>
          have t3 := copy_trace (w2.log (.Open f.Name)) outFile rc
          rw [h4] at t3
          simp [World.log] at t3
          simp [t1, t2, t3, filterCalls_append, filterCalls]

theorem rangeFile_append (filter : Str → Bool) (pre post : List ZipFile) (w : World) :
    rangeFile filter (pre ++ post) w = rangeFile filter post (rangeFile filter pre w) := by
  induction pre generalizing w with
  | nil => rfl
  | cons f fs ih => simp [rangeFile, ih]


/-! ## filepath: cleaning -/

theorem logs_toList : "logs".toList = ['l', 'o', 'g', 's'] := rfl

theorem splitSep_ne_nil (s : Str) : splitSep s ≠ [] := by
  cases s with
  | nil => simp [splitSep]
  | cons c cs =>
    unfold splitSep
    split
    · simp
    · split <;> simp

theorem splitSep_of_not_mem {s : Str} (h : '/' ∉ s) : splitSep s = [s] := by
  induction s with
  | nil => rfl
  | cons c cs ih =>
    have hc : c ≠ '/' := fun e => h (by simp [e])
    have hcs : '/' ∉ cs := fun m => h (by simp [m])
    simp [splitSep, hc, ih hcs]

theorem splitSep_append_sep (a b : Str) :
    splitSep (a ++ '/' :: b) = splitSep a ++ splitSep b := by
  induction a with
  | nil => simp [splitSep]
  | cons c cs ih =>
    by_cases hc : c = '/'
    · simp [splitSep, hc, ih]
    · cases hs : splitSep cs with
      | nil => exact absurd hs (splitSep_ne_nil cs)
      | cons e es => simp [splitSep, hc, ih, hs]

theorem joinSep_cons_cons (e e' : Str) (es : List Str) :
    joinSep (e :: e' :: es) = e ++ '/' :: joinSep (e' :: es) := rfl

theorem joinSep_splitSep (s : Str) : joinSep (splitSep s) = s := by
  induction s with
  | nil => rfl
  | cons c cs ih =>
    cases hs : splitSep cs with
    | nil => exact absurd hs (splitSep_ne_nil cs)
    | cons e es =>
      rw [hs] at ih
      by_cases hc : c = '/'
      · simp [splitSep, hc, hs, joinSep_cons_cons, ih]
      · cases es with
        | nil =>
          simp [joinSep] at ih
          simp [splitSep, hc, hs, joinSep, ih]
        | cons e' es' =>
          rw [joinSep_cons_cons] at ih
          simp [splitSep, hc, hs, joinSep_cons_cons, ih]

theorem joinSep_append (xs ys : List Str) (hx : xs ≠ []) (hy : ys ≠ []) :
    joinSep (xs ++ ys) = joinSep xs ++ '/' :: joinSep ys := by
  induction xs with
  | nil => exact absurd rfl hx
  | cons x xs ih =>
    cases xs with
    | nil =>
      cases ys with
      | nil => exact absurd rfl hy
      | cons y ys => simp [joinSep]
    | cons x' xs' =>
      have := ih (by simp)
      simp only [List.cons_append] at this ⊢
      rw [joinSep_cons_cons, this, joinSep_cons_cons]
      simp

theorem cleanElem_real {rooted : Bool} {out : List Str} {e : Str} (h : realElem e) :
    cleanElem rooted out e = e :: out := by
  obtain ⟨h1, h2, h3⟩ := h
  simp [cleanElem, h1, h2, h3]

theorem foldl_cleanElem_real {rooted : Bool} (es : List Str) (out : List Str)
    (h : ∀ e ∈ es, realElem e) :
    es.foldl (cleanElem rooted) out = es.reverse ++ out := by
  induction es generalizing out with
  | nil => rfl
  | cons e es ih =>
    rw [List.foldl_cons, cleanElem_real (h e (by simp)), ih _ (fun x hx => h x (by simp [hx]))]
    simp

/-- Without a `..` element the stack of `Clean` only grows: what was written stays at
the bottom. -/
theorem foldl_cleanElem_noDotDot (rooted : Bool) (es : List Str) (out : List Str)
    (h : ['.', '.'] ∉ es) :
    ∃ top : List Str, es.foldl (cleanElem rooted) out = top ++ out := by
  induction es generalizing out with
  | nil => exact ⟨[], rfl⟩
  | cons e es ih =>
    have he : e ≠ ['.', '.'] := fun x => h (by simp [x])
    have hes : ['.', '.'] ∉ es := fun m => h (by simp [m])
    rw [List.foldl_cons]
    by_cases h1 : e = []
    · simpa [cleanElem, h1] using ih out hes
    · by_cases h2 : e = ['.']
      · simpa [cleanElem, h2] using ih out hes
      · obtain ⟨top, ht⟩ := ih (e :: out) hes
        refine ⟨top ++ [e], ?_⟩
        simp [cleanElem, h1, h2, he, ht]

theorem clean_unrooted {path : Str} (h0 : path ≠ []) (h : path.head? ≠ some '/') :
    Clean path =
      if joinSep ((splitSep path).foldl (cleanElem false) []).reverse = [] then ['.']
      else joinSep ((splitSep path).foldl (cleanElem false) []).reverse := by
  simp [Clean, h0, h]

theorem hasPrefix_append (a b : Str) : HasPrefix (a ++ b) a = true := by
  induction a with
  | nil => cases b <;> rfl
  | cons c cs ih => simp [HasPrefix, ih]

theorem within_self (root : Str) : Within root root = true := by
  simp [Within]

theorem within_append (root rest : Str) : Within root (root ++ '/' :: rest) = true := by
  have := hasPrefix_append (root ++ ['/']) rest
  simp only [List.append_assoc, List.singleton_append] at this
  simp [Within, this]

theorem within_joinSep_cons (root : Str) (es : List Str) :
    Within root (joinSep (root :: es)) = true := by
  cases es with
  | nil => simp [joinSep, within_self]
  | cons e es => rw [joinSep_cons_cons]; exact within_append _ _

/-! ## the job directory and the destination path -/

theorem join_two {a b : Str} (h : a ≠ []) : Join [a, b] = Clean (a ++ '/' :: b) := by
  simp [Join, List.dropWhile, h, joinSep]

theorem jobDir_stack {jobName : Str} (h : '/' ∉ jobName) :
    (splitSep (['l', 'o', 'g', 's'] ++ '/' :: jobName)).foldl (cleanElem false) []
      = jobStack jobName := by
  rw [splitSep_append_sep, splitSep_of_not_mem h,
    splitSep_of_not_mem (s := ['l', 'o', 'g', 's']) (by decide)]
  simp only [List.singleton_append, List.foldl_cons, List.foldl_nil]
  have h0 : cleanElem false [] ['l', 'o', 'g', 's'] = [['l', 'o', 'g', 's']] := by decide
  rw [h0]
  unfold jobStack
  by_cases h1 : jobName = []
  · simp [h1, cleanElem]
  · by_cases h2 : jobName = ['.']
    · simp [h2, cleanElem]
    · by_cases h3 : jobName = ['.', '.']
      · simp [h3, cleanElem]
      · simp [h1, h2, h3, cleanElem]

theorem jobDir_eq {jobName : Str} (h : '/' ∉ jobName) :
    Join ["logs".toList, jobName] =
      if jobName = [] ∨ jobName = ['.'] then ['l', 'o', 'g', 's']
      else if jobName = ['.', '.'] then ['.']
      else ['l', 'o', 'g', 's'] ++ '/' :: jobName := by
  rw [logs_toList, join_two (by simp), clean_unrooted (by simp) (by simp), jobDir_stack h]
  unfold jobStack
  by_cases h1 : jobName = [] ∨ jobName = ['.']
  · simp [h1, joinSep]
  · by_cases h3 : jobName = ['.', '.']
    · simp [h3, joinSep]
    · simp [h1, h3, joinSep]

theorem jobDir_ne_nil {jobName : Str} (h : '/' ∉ jobName) :
    Join ["logs".toList, jobName] ≠ [] := by
  rw [jobDir_eq h]
  split
  · simp
  · split <;> simp

theorem jobDir_head {jobName : Str} (h : '/' ∉ jobName) :
    (Join ["logs".toList, jobName]).head? ≠ some '/' := by
  rw [jobDir_eq h]
  split
  · simp
  · split <;> simp

theorem jobDir_stack_clean {jobName : Str} (h : '/' ∉ jobName) :
    (splitSep (Join ["logs".toList, jobName])).foldl (cleanElem false) []
      = jobStack jobName := by
  rw [jobDir_eq h]
  by_cases h1 : jobName = [] ∨ jobName = ['.']
  · rw [if_pos h1]
    unfold jobStack
    rw [if_pos h1]
    decide
  · rw [if_neg h1]
    by_cases h3 : jobName = ['.', '.']
    · rw [if_pos h3]
      unfold jobStack
      rw [if_neg h1, if_pos h3]
      decide
    · rw [if_neg h3]
      exact jobDir_stack h

/-- The destination path is what `Clean` renders after reading the elements of the file
name on top of the stack left by the job directory. -/
theorem destPath_eq {jobName : Str} (fileName : Str) (h : '/' ∉ jobName) :
    destPath jobName fileName =
      if joinSep ((splitSep fileName).foldl (cleanElem false) (jobStack jobName)).reverse = []
      then ['.']
      else joinSep ((splitSep fileName).foldl (cleanElem false) (jobStack jobName)).reverse := by
  unfold destPath
  rw [join_two (jobDir_ne_nil h), clean_unrooted (by simp)]
  · rw [splitSep_append_sep, List.foldl_append, jobDir_stack_clean h]
  · have := jobDir_head h
    cases hj : Join ["logs".toList, jobName] with
    | nil => exact absurd hj (jobDir_ne_nil h)
    | cons c cs =>
      rw [hj] at this
      simpa using this

theorem jobStack_reverse_of_ne_dotdot {jobName : Str} (h : jobName ≠ ['.', '.']) :
    ∃ tl, (jobStack jobName).reverse = ['l', 'o', 'g', 's'] :: tl := by
  unfold jobStack
  by_cases h1 : jobName = [] ∨ jobName = ['.']
  · exact ⟨[], by simp [h1]⟩
  · exact ⟨[jobName], by simp [h1, h]⟩

theorem joinSep_cons_ne_nil {e : Str} (es : List Str) (h : e ≠ []) : joinSep (e :: es) ≠ [] := by
  cases es with
  | nil => simpa [joinSep] using h
  | cons e' es' => rw [joinSep_cons_cons]; simp [h]

theorem dest_within_logs {jobName fileName : Str} (h : '/' ∉ jobName)
    (hj : jobName ≠ ['.', '.']) (hf : ['.', '.'] ∉ splitSep fileName) :
    Within ['l', 'o', 'g', 's'] (destPath jobName fileName) = true := by
  obtain ⟨top, ht⟩ := foldl_cleanElem_noDotDot false (splitSep fileName)
    (jobStack jobName) hf
  obtain ⟨tl, hs⟩ := jobStack_reverse_of_ne_dotdot hj
  rw [destPath_eq fileName h, ht, List.reverse_append, hs, List.cons_append,
    if_neg (joinSep_cons_ne_nil _ (by simp))]
  exact within_joinSep_cons _ _

theorem dest_within_jobDir {jobName fileName : Str} (h : '/' ∉ jobName)
    (hj : realElem jobName) (hf : ['.', '.'] ∉ splitSep fileName) :
    Within (['l', 'o', 'g', 's'] ++ '/' :: jobName) (destPath jobName fileName) = true := by
  obtain ⟨top, ht⟩ := foldl_cleanElem_noDotDot false (splitSep fileName)
    (jobStack jobName) hf
  obtain ⟨h1, h2, h3⟩ := hj
  have hs : jobStack jobName = [jobName, ['l', 'o', 'g', 's']] := by
    simp [jobStack, h1, h2, h3]
  rw [destPath_eq fileName h, ht, List.reverse_append, hs]
  simp only [List.reverse_cons, List.reverse_nil, List.nil_append, List.cons_append]
  rw [if_neg (joinSep_cons_ne_nil _ (by simp)), joinSep_cons_cons]
  cases top.reverse with
  | nil => simp [joinSep, within_self]
  | cons e es =>
    rw [joinSep_cons_cons]
    have := within_append (['l', 'o', 'g', 's'] ++ '/' :: jobName) (joinSep (e :: es))
    simpa using this

theorem splitSep_real_ne_nil {fileName : Str} (h : ∀ e ∈ splitSep fileName, realElem e) :
    fileName ≠ [] := by
  intro e
  subst e
  exact (h [] (by simp [splitSep])).1 rfl

/-- For a file name all of whose elements are real, the destination is the file name
itself appended to a path that depends on the job name only. -/
theorem destPath_of_real {jobName fileName : Str} (h : '/' ∉ jobName)
    (hf : ∀ e ∈ splitSep fileName, realElem e) :
    destPath jobName fileName =
      if jobStack jobName = [] then fileName
      else joinSep (jobStack jobName).reverse ++ '/' :: fileName := by
  have hne := splitSep_real_ne_nil hf
  rw [destPath_eq fileName h, foldl_cleanElem_real _ _ hf, List.reverse_append,
    List.reverse_reverse]
  by_cases hs : jobStack jobName = []
  · simp [hs, joinSep_splitSep, hne]
  · rw [joinSep_append _ _ (by simpa using hs) (splitSep_ne_nil _), joinSep_splitSep]
    simp [hs]

theorem destPath_injective {jobName f1 f2 : Str} (h : '/' ∉ jobName)
    (h1 : ∀ e ∈ splitSep f1, realElem e) (h2 : ∀ e ∈ splitSep f2, realElem e)
    (hne : f1 ≠ f2) : destPath jobName f1 ≠ destPath jobName f2 := by
  rw [destPath_of_real h h1, destPath_of_real h h2]
  by_cases hs : jobStack jobName = []
  · simpa [hs] using hne
  · simpa [hs] using hne

/-! ## the file system: what a call can change -/

theorem fs_set_ne {fs : FS} {p q : Str} {n : Node} (h : q ≠ p) : (fs.set p n) q = fs q := by
  simp [FS.set, h]

theorem fs_set_eq {fs : FS} {p : Str} {n : Node} : (fs.set p n) p = some n := by
  simp [FS.set]

/-- The call `Mkdir` changes the file system at most at `path`, and only by putting a
directory where there was nothing. -/
theorem mkdir_change (fault : Op → Bool) (fs : FS) (path : Str) (perm : Nat) (q : Str) :
    (Mkdir fault fs path perm).1 q = fs q ∨
    (q = path ∧ fs q = none ∧ (Mkdir fault fs path perm).1 q = some (.dir perm)) := by
  unfold Mkdir
  split
  · exact Or.inl rfl
  · split
    · exact Or.inl rfl
    · next hp =>
      split
      · by_cases hq : q = path
        · subst hq
          exact Or.inr ⟨rfl, hp, fs_set_eq⟩
        · exact Or.inl (fs_set_ne hq)
      · exact Or.inl rfl
      · exact Or.inl rfl

theorem mkdirAllAux_change (fault : Op → Bool) (perm : Nat) (ps : List Str) (fs : FS)
    (q : Str) :
    (mkdirAllAux fault perm ps fs).1 q = fs q ∨
    (q ∈ ps ∧ fs q = none ∧ (mkdirAllAux fault perm ps fs).1 q = some (.dir perm)) := by
  induction ps with
  | nil => exact Or.inl rfl
  | cons p ps ih =>
    unfold mkdirAllAux
    split
    · exact Or.inl rfl
    · exact Or.inl rfl
    · next hp =>
      split
      · next fs1 err h1 =>
        rw [h1] at ih
        rcases ih with ih | ⟨m, h0, hd⟩
        · exact Or.inl ih
        · exact Or.inr ⟨List.mem_cons_of_mem _ m, h0, hd⟩
      · next fs1 h1 =>
        rw [h1] at ih
        simp only at ih
        rcases mkdir_change fault fs1 p perm q with hm | ⟨hq, h0, hd⟩
        · rw [hm]
          rcases ih with ih | ⟨m, h0, hd⟩
          · exact Or.inl ih
          · exact Or.inr ⟨List.mem_cons_of_mem _ m, h0, hd⟩
        · subst hq
          exact Or.inr ⟨List.mem_cons_self _ _, hp, hd⟩

theorem mkdirAll_change (w : World) (path : Str) (perm : Nat) (q : Str) :
    (MkdirAll w path perm).1.fs q = w.fs q ∨
    (q ∈ prefixesAux [] path ∧ w.fs q = none ∧
      (MkdirAll w path perm).1.fs q = some (.dir perm)) := by
  have := mkdirAllAux_change w.fault perm (prefixesAux [] path).reverse w.fs q
  simpa [MkdirAll, World.log] using this

theorem openFile_frame (w : World) (name : Str) (perm : Nat) {q : Str} (h : q ≠ name) :
    (OpenFile w name perm).1.fs q = w.fs q := by
  unfold OpenFile
  simp only [World.log]
  split
  · rfl
  · split
    · rfl
    · split
      · rfl
      · exact fs_set_ne h
    · split
      · exact fs_set_ne h
      · rfl
      · rfl

/-- A successful `OpenFile` returns the path as handle and leaves there an empty file. -/
theorem openFile_ok_fs {w w1 : World} {name outFile : Str} {perm : Nat}
    (h : OpenFile w name perm = (w1, .ok outFile)) :
    ∃ m, w1.fs name = some (.file m []) := by
  unfold OpenFile at h
  simp only [World.log] at h
  split at h
  · simp at h
  · split at h
    · simp at h
    · split at h
      · simp at h
      · next mode _ _ _ =>
        simp only [Prod.mk.injEq, Except.ok.injEq] at h
        rw [← h.1]
        exact ⟨mode, fs_set_eq⟩
    · split at h
      · simp only [Prod.mk.injEq, Except.ok.injEq] at h
        rw [← h.1]
        exact ⟨perm, fs_set_eq⟩
      · simp at h
      · simp at h

theorem openFile_handle {w w1 : World} {name outFile : Str} {perm : Nat}
    (h : OpenFile w name perm = (w1, .ok outFile)) : outFile = name := by
  unfold OpenFile at h
  simp only [World.log] at h
  split at h
  · simp at h
  · split at h
    · simp at h
    · split at h
      · simp at h
      · simp at h
        exact h.2.symm
    · split at h
      · simp at h
        exact h.2.symm
      · simp at h
      · simp at h

theorem copy_frame (w : World) (dst : Str) (src : Stream) {q : Str} (h : q ≠ dst) :
    (Copy w dst src).1.fs q = w.fs q := by
  unfold Copy
  simp only [World.log]
  split
  · rfl
  · split
    · exact fs_set_ne h
    · rfl

theorem log_fs (w : World) (e : Event) : (w.log e).fs = w.fs := rfl

/-- What the extraction of an entry can change in the file system: the destination
path, and a missing ancestor of the job directory, which becomes a directory. -/
theorem extract_change (f : ZipFile) (jobName fileName : Str) (w : World) (q : Str) :
    (extract f jobName fileName w).fs q = w.fs q ∨
    q = destPath jobName fileName ∨
    (q ∈ prefixesAux [] (Join ["logs".toList, jobName]) ∧ w.fs q = none ∧
      (extract f jobName fileName w).fs q = some (.dir 0o755)) := by
  by_cases hq : q = destPath jobName fileName
  · exact Or.inr (Or.inl hq)
  have hq2 : q ≠ Join [Join ["logs".toList, jobName], fileName] := hq
  have hmk := mkdirAll_change w (Join ["logs".toList, jobName]) 0o755 q
  have key : ∀ w1 : World, w1.fs q = (MkdirAll w (Join ["logs".toList, jobName]) 0o755).1.fs q →
      (w1.fs q = w.fs q ∨ q = destPath jobName fileName ∨
        (q ∈ prefixesAux [] (Join ["logs".toList, jobName]) ∧ w.fs q = none ∧
          w1.fs q = some (.dir 0o755))) := by
    intro w1 h1
    rcases hmk with h | ⟨m, h0, hd⟩
    · exact Or.inl (h1.trans h)
    · exact Or.inr (Or.inr ⟨m, h0, h1.trans hd⟩)
  apply key
  unfold extract
  simp only []
  split
  · next w1 err h1 => rw [h1]; rfl
  · next w1 h1 =>
    rw [h1]
    simp only
    split
    · next w2 err h2 =>
      have := openFile_frame w1 (Join [Join ["logs".toList, jobName], fileName]) f.Mode hq2
      rw [h2] at this
      simpa [World.log] using this
    · next w2 outFile h2 =>
      have ho := openFile_handle h2
      have := openFile_frame w1 (Join [Join ["logs".toList, jobName], fileName]) f.Mode hq2
      rw [h2] at this
      simp only at this
      split
      · simpa [World.log] using this
      · next rc h3 =>
        have hc := copy_frame (w2.log (.Open f.Name)) outFile rc (q := q) (by rw [ho]; exact hq2)
        split
        · next w3 err h4 =>
          rw [h4] at hc
          simp only [log_fs] at hc ⊢
          rw [hc, this]
        · next w3 h4 =>
          rw [h4] at hc
          simp only [log_fs] at hc ⊢
          rw [hc, this]

/-! ## ancestors of the job directory -/

theorem prefixesAux_no_sep (acc : Str) {s : Str} (h : '/' ∉ s) :
    prefixesAux acc s = if acc ++ s = [] then [] else [acc ++ s] := by
  induction s generalizing acc with
  | nil => simp [prefixesAux]
  | cons c cs ih =>
    have hc : c ≠ '/' := fun e => h (by simp [e])
    have hcs : '/' ∉ cs := fun m => h (by simp [m])
    simp [prefixesAux, hc, ih (acc ++ [c]) hcs]

theorem prefixesAux_sep (acc : Str) {a : Str} (b : Str) (h : '/' ∉ a) :
    prefixesAux acc (a ++ '/' :: b) =
      (if acc ++ a = [] then [] else [acc ++ a]) ++ prefixesAux (acc ++ a ++ ['/']) b := by
  induction a generalizing acc with
  | nil => simp [prefixesAux]
  | cons c cs ih =>
    have hc : c ≠ '/' := fun e => h (by simp [e])
    have hcs : '/' ∉ cs := fun m => h (by simp [m])
    simp [prefixesAux, hc, ih (acc ++ [c]) hcs]

theorem prefixes_jobDir {jobName : Str} (h : '/' ∉ jobName) :
    prefixesAux [] (['l', 'o', 'g', 's'] ++ '/' :: jobName)
      = [['l', 'o', 'g', 's'], ['l', 'o', 'g', 's'] ++ '/' :: jobName] := by
  rw [prefixesAux_sep [] jobName (by decide), prefixesAux_no_sep _ h]
  simp

theorem prefixes_within_logs {jobName : Str} (h : '/' ∉ jobName) (hj : jobName ≠ ['.', '.'])
    {q : Str} (hq : q ∈ prefixesAux [] (Join ["logs".toList, jobName])) :
    Within ['l', 'o', 'g', 's'] q = true := by
  rw [jobDir_eq h] at hq
  by_cases h1 : jobName = [] ∨ jobName = ['.']
  · rw [if_pos h1] at hq
    have : prefixesAux [] ['l', 'o', 'g', 's'] = [['l', 'o', 'g', 's']] := by decide
    rw [this] at hq
    simp at hq
    subst hq
    exact within_self _
  · rw [if_neg h1, if_neg hj, prefixes_jobDir h] at hq
    simp at hq
    rcases hq with hq | hq
    · subst hq; exact within_self _
    · subst hq
      have := within_append ['l', 'o', 'g', 's'] jobName
      simpa using this

theorem two_parts_not_mem {name jobName fileName : Str}
    (h : SplitN name '/' 2 = [jobName, fileName]) :
    '/' ∉ jobName ∧ jobName ++ '/' :: fileName = name := by
  by_cases hm : '/' ∈ name
  · obtain ⟨a, b, h1, h2, h3⟩ := splitN_two_of_mem hm
    rw [h1] at h
    simp at h
    obtain ⟨rfl, rfl⟩ := h
    exact ⟨h2, h3⟩
  · rw [splitN_two_of_not_mem hm] at h
    simp at h

/-- The loop body leaves the file system as it was or as the extraction leaves it. -/
theorem loopBody_fs {filter : Str → Bool} {f : ZipFile} {jobName fileName : Str}
    (h : SplitN f.Name '/' 2 = [jobName, fileName]) (w : World) :
    (loopBody filter f w).fs = w.fs ∨
    (loopBody filter f w).fs
      = (extract f jobName fileName (w.log (.filter jobName (filter jobName)))).fs := by
  rw [loopBody_of_two h]
  by_cases h1 : fileName = [] ∨ HasSuffix fileName ['/'] = true
  · simp [h1]
  · by_cases h2 : filter jobName = true
    · simp [h1, h2, World.log]
    · simp [h1, h2]

/-! ## entries that are extracted -/

theorem real_not_skipped {n : Str} (h : ∀ e ∈ splitSep n, realElem e) :
    ¬ (n = [] ∨ HasSuffix n ['/'] = true) := by
  intro hn
  rcases hn with hn | hn
  · exact splitSep_real_ne_nil h hn
  · rw [hasSuffix_sep] at hn
    obtain ⟨t, ht⟩ : ∃ t, n = t ++ '/' :: [] := by
      induction n using List.reverseRecOn with
      | nil => simp at hn
      | append_singleton t c =>
        simp [List.getLast?_append] at hn
        exact ⟨t, by rw [hn]⟩
    have := h [] (by rw [ht, splitSep_append_sep]; simp [splitSep])
    exact this.1 rfl

theorem loopBody_extract {filter : Str → Bool} {f : ZipFile} {jobName n : Str}
    (hs : SplitN f.Name '/' 2 = [jobName, n]) (hx : filter jobName = false)
    (hr : ∀ e ∈ splitSep n, realElem e) (w : World) :
    loopBody filter f w = extract f jobName n (w.log (.filter jobName false)) := by
  rw [loopBody_of_two hs, if_neg (real_not_skipped hr)]
  simp [hx]

theorem extract_keeps_file {f : ZipFile} {jobName n q : Str} {w : World} {m : Nat}
    {d : List Nat} (hq : q ≠ destPath jobName n) (h : w.fs q = some (.file m d)) :
    (extract f jobName n w).fs q = some (.file m d) := by
  rcases extract_change f jobName n w q with hc | hc | ⟨-, hc, -⟩
  · rw [hc, h]
  · exact absurd hc hq
  · rw [h] at hc; simp at hc

theorem printed_append (s t : List Event) : printed (s ++ t) = printed s ++ printed t := by
  induction s with
  | nil => rfl
  | cons e s ih => cases e <;> simp [printed, ih]

theorem append_eq_self_left {α : Type} {l x : List α} (h : l ++ x = l) : x = [] := by
  have := congrArg List.length h
  simp at this
  exact this

theorem copy_none {w w3 : World} {dst : Str} {src : Stream} {m : Nat} {old : List Nat}
    (h : Copy w dst src = (w3, none)) (hf : w.fs dst = some (.file m old)) :
    src.err = none ∧ w3.fs dst = some (.file m (old ++ src.data)) := by
  unfold Copy at h
  simp only [World.log, hf] at h
  split at h
  · simp at h
  · simp only [Prod.mk.injEq] at h
    rw [← h.1]
    exact ⟨h.2, fs_set_eq⟩

/-- An extraction that prints nothing has opened the entry, read its stream to the end
without error, and left at the destination a file holding exactly the bytes read. -/
theorem extract_quiet {f : ZipFile} {jobName fileName : Str} {w : World}
    (h : printed (extract f jobName fileName w).trace = printed w.trace) :
    ∃ (m : Nat) (rc : Stream), f.Open = .ok rc ∧ rc.err = none ∧
      (extract f jobName fileName w).fs (destPath jobName fileName)
        = some (.file m rc.data) := by
  have t1 := mkdirAll_trace w (Join ["logs".toList, jobName]) 0o755
  cases hmk : MkdirAll w (Join ["logs".toList, jobName]) 0o755 with
  | mk w1 e1 =>
  rw [hmk] at t1
  simp only at t1
  cases e1 with
  | some err =>
    have hex : extract f jobName fileName w
        = w1.log (.Printf "Error creating job dir: %v\n" err) := by
      simp only [extract, hmk]
    rw [hex] at h
    simp only [World.log, t1, printed_append, List.append_assoc] at h
    have := append_eq_self_left h
    simp [printed] at this
  | none =>
    have t2 := openFile_trace w1 (Join [Join ["logs".toList, jobName], fileName]) f.Mode
    cases hop : OpenFile w1 (Join [Join ["logs".toList, jobName], fileName]) f.Mode with
    | mk w2 r2 =>
    rw [hop] at t2
    simp only at t2
    cases r2 with
    | error err =>
      have hex : extract f jobName fileName w
          = w2.log (.Printf "Error creating log file: %v\n" err) := by
        simp only [extract, hmk, hop]
      rw [hex] at h
      simp only [World.log, t1, t2, printed_append, List.append_assoc] at h
      have := append_eq_self_left h
      simp [printed] at this
    | ok outFile =>
      have ho := openFile_handle hop
      obtain ⟨m, hm⟩ := openFile_ok_fs hop
      cases hfo : f.Open with
      | error err =>
        have hex : extract f jobName fileName w
            = (w2.log (.Open f.Name)).log (.Printf "Error opening zipped log: %v\n" err) := by
          simp only [extract, hmk, hop, hfo]
        rw [hex] at h
        simp only [World.log, t1, t2, printed_append, List.append_assoc] at h
        have := append_eq_self_left h
        simp [printed] at this
      | ok rc =>
        have t3 := copy_trace (w2.log (.Open f.Name)) outFile rc
        cases hcp : Copy (w2.log (.Open f.Name)) outFile rc with
        | mk w3 e3 =>
        rw [hcp] at t3
        simp only [World.log] at t3
        cases e3 with
        | some err =>
          have hex : extract f jobName fileName w
              = w3.log (.Printf "Error extracting log file: %v\n" err) := by
            simp only [extract, hmk, hop, hfo, hcp]
          rw [hex] at h
          simp only [World.log, t1, t2, t3, printed_append, List.append_assoc] at h
          have := append_eq_self_left h
          simp [printed] at this
        | none =>
          have hex : extract f jobName fileName w = w3 := by
            simp only [extract, hmk, hop, hfo, hcp]
          rw [hex]
          subst ho
          obtain ⟨he, hfs⟩ := copy_none hcp (by rw [log_fs]; exact hm)
          refine ⟨m, rc, rfl, he, ?_⟩
          simpa [destPath] using hfs

theorem extract_trace_ext (f : ZipFile) (jobName fileName : Str) (w : World) :
    ∃ new, (extract f jobName fileName w).trace = w.trace ++ new := by
  unfold extract
  simp only []
  have t1 := mkdirAll_trace w (Join ["logs".toList, jobName]) 0o755
  split
  · next w1 err h1 =>
    rw [h1] at t1
    simp only at t1
    simp only [World.log, t1, List.append_assoc]
    exact ⟨_, rfl⟩
  · next w1 h1 =>
    rw [h1] at t1
    simp only at t1
    have t2 := openFile_trace w1 (Join [Join ["logs".toList, jobName], fileName]) f.Mode
    split
    · next w2 err h2 =>
      rw [h2] at t2
      simp only at t2
      simp only [World.log, t1, t2, List.append_assoc]
      exact ⟨_, rfl⟩
    · next w2 outFile h2 =>
      rw [h2] at t2
      simp only at t2
      split
      · simp only [World.log, t1, t2, List.append_assoc]
        exact ⟨_, rfl⟩
      · next rc h3 =>
        have t3 := copy_trace (w2.log (.Open f.Name)) outFile rc
        split
        · next w3 err h4 =>
          rw [h4] at t3
          simp only [World.log] at t3
          simp only [World.log, t1, t2, t3, List.append_assoc]
          exact ⟨_, rfl⟩
        · next w3 h4 =>
          rw [h4] at t3
          simp only [World.log] at t3
          simp only [t1, t2, t3, List.append_assoc]
          exact ⟨_, rfl⟩

theorem loopBody_trace_ext (filter : Str → Bool) (g : ZipFile) (w : World) :
    ∃ new, (loopBody filter g w).trace = w.trace ++ new := by
  by_cases hm : '/' ∈ g.Name
  · obtain ⟨a, b, h1, -, -⟩ := splitN_two_of_mem hm
    rw [loopBody_of_two h1]
    by_cases h2 : b = [] ∨ HasSuffix b ['/'] = true
    · exact ⟨[], by simp [h2]⟩
    · by_cases h3 : filter a = true
      · exact ⟨[.filter a (filter a)], by simp [h2, h3, World.log]⟩
      · obtain ⟨new, hn⟩ := extract_trace_ext g a b (w.log (.filter a (filter a)))
        refine ⟨.filter a (filter a) :: new, ?_⟩
        rw [if_neg h2, if_neg h3, hn]
        simp [World.log]
  · exact ⟨[], by rw [loopBody_of_one (splitN_two_of_not_mem hm)]; simp⟩

theorem rangeFile_trace_ext (filter : Str → Bool) (r : List ZipFile) (w : World) :
    ∃ new, (rangeFile filter r w).trace = w.trace ++ new := by
  induction r generalizing w with
  | nil => exact ⟨[], by simp [rangeFile]⟩
  | cons g r ih =>
    obtain ⟨n1, h1⟩ := loopBody_trace_ext filter g w
    obtain ⟨n2, h2⟩ := ih (loopBody filter g w)
    exact ⟨n1 ++ n2, by simp [rangeFile, h2, h1]⟩

/-- A run that prints nothing is made of steps that print nothing. -/
theorem quiet_cons {filter : Str → Bool} {g : ZipFile} {r : List ZipFile} {w : World}
    (h : printed (rangeFile filter (g :: r) w).trace = printed w.trace) :
    printed (loopBody filter g w).trace = printed w.trace ∧
    printed (rangeFile filter r (loopBody filter g w)).trace
      = printed (loopBody filter g w).trace := by
  obtain ⟨n1, h1⟩ := loopBody_trace_ext filter g w
  obtain ⟨n2, h2⟩ := rangeFile_trace_ext filter r (loopBody filter g w)
  simp only [rangeFile] at h
  rw [h2, h1, printed_append, printed_append, List.append_assoc] at h
  have h0 := append_eq_self_left h
  have hn1 : printed n1 = [] := (List.append_eq_nil.mp h0).1
  have hn2 : printed n2 = [] := (List.append_eq_nil.mp h0).2
  constructor
  · rw [h1, printed_append, hn1, List.append_nil]
  · rw [h2, printed_append, hn2, List.append_nil]

theorem quiet_append {filter : Str → Bool} {pre rest : List ZipFile} {w : World}
    (h : printed (rangeFile filter (pre ++ rest) w).trace = printed w.trace) :
    printed (rangeFile filter pre w).trace = printed w.trace ∧
    printed (rangeFile filter rest (rangeFile filter pre w)).trace
      = printed (rangeFile filter pre w).trace := by
  obtain ⟨n1, h1⟩ := rangeFile_trace_ext filter pre w
  obtain ⟨n2, h2⟩ := rangeFile_trace_ext filter rest (rangeFile filter pre w)
  rw [rangeFile_append, h2, h1, printed_append, printed_append, List.append_assoc] at h
  have h0 := append_eq_self_left h
  have hn1 : printed n1 = [] := (List.append_eq_nil.mp h0).1
  have hn2 : printed n2 = [] := (List.append_eq_nil.mp h0).2
  constructor
  · rw [h1, printed_append, hn1, List.append_nil]
  · rw [h2, printed_append, hn2, List.append_nil]

/-- The loop body leaves a file as it is unless the file sits at the path the entry is
written to. -/
theorem loopBody_keeps_file {filter : Str → Bool} {g : ZipFile} {w : World} {q : Str}
    {m : Nat} {d : List Nat} (hq : target filter g ≠ some q)
    (h : w.fs q = some (.file m d)) :
    (loopBody filter g w).fs q = some (.file m d) := by
  by_cases hm : '/' ∈ g.Name
  · obtain ⟨a, b, h1, -, -⟩ := splitN_two_of_mem hm
    rw [loopBody_of_two h1]
    unfold target at hq
    rw [h1] at hq
    simp only at hq
    by_cases h2 : b = [] ∨ HasSuffix b ['/'] = true
    · simpa [h2] using h
    · by_cases h3 : filter a = true
      · simpa [h2, h3, World.log] using h
      · have hc : ¬ (b = [] ∨ HasSuffix b ['/'] = true ∨ filter a = true) := by
          intro hc
          rcases hc with hc | hc | hc
          · exact h2 (Or.inl hc)
          · exact h2 (Or.inr hc)
          · exact h3 hc
        rw [if_neg hc] at hq
        have hne : q ≠ destPath a b := fun e => hq (by rw [e])
        simp only [h2, h3, if_false]
        exact extract_keeps_file hne (by rw [log_fs]; exact h)
  · rw [loopBody_of_one (splitN_two_of_not_mem hm)]
    exact h

theorem rangeFile_keeps_file {filter : Str → Bool} {r : List ZipFile} {w : World} {q : Str}
    {m : Nat} {d : List Nat} (hq : ∀ g ∈ r, target filter g ≠ some q)
    (h : w.fs q = some (.file m d)) :
    (rangeFile filter r w).fs q = some (.file m d) := by
  induction r generalizing w with
  | nil => exact h
  | cons g r ih =>
    simp only [rangeFile]
    exact ih (fun x hx => hq x (List.mem_cons_of_mem _ hx))
      (loopBody_keeps_file (hq g (List.mem_cons_self _ _)) h)

/-! ## entries that are skipped -/

/-- C5: an archive entry whose name has no separator leaves the world exactly as it
was (file system and trace: the predicate is not called, nothing is printed), and a run
of `decompressLogsPerJob` on an archive holding such an entry does what the run without
that entry does and returns no error. -/
theorem rootEntry_writes_nothing (filter : Str → Bool) (f : ZipFile) (h : '/' ∉ f.Name) :
    (∀ w, loopBody filter f w = w) ∧
    ∀ (w : World) (zipPath : Str) (pre post : List ZipFile),
      w.OpenReader zipPath = .ok (pre ++ f :: post) →
      decompressLogsPerJob zipPath filter w = (rangeFile filter (pre ++ post) w, none) := by
  have hb : ∀ w, loopBody filter f w = w := fun w =>
    loopBody_of_one (splitN_two_of_not_mem h)
  refine ⟨hb, ?_⟩
  intro w zipPath pre post ho
  simp [decompressLogsPerJob, ho, rangeFile_append, rangeFile, hb]

theorem rootEntry_writes_nothing_witness :
    '/' ∉ "summary.json".toList ∧
    ((∀ w, loopBody excludeTest ⟨"summary.json".toList, 0o644, zeros 17⟩ w = w) ∧
     ∀ (w : World) (zipPath : Str) (pre post : List ZipFile),
      w.OpenReader zipPath
        = .ok (pre ++ (⟨"summary.json".toList, 0o644, zeros 17⟩ : ZipFile) :: post) →
      decompressLogsPerJob zipPath excludeTest w
        = (rangeFile excludeTest (pre ++ post) w, none)) :=
  ⟨by decide, rootEntry_writes_nothing excludeTest ⟨"summary.json".toList, 0o644, zeros 17⟩
    (by decide)⟩

/-- C2: an entry whose job name (the first piece of `SplitN(name, "/", 2)`) makes the
predicate return true changes nothing in the file system, and the only call it can add
to the trace is that call of the predicate: no `MkdirAll`, no `OpenFile`, no opening of
the entry. -/
theorem excluded_entry_changes_nothing (filter : Str → Bool) (f : ZipFile) (w : World)
    (h : filter ((SplitN f.Name '/' 2).getD 0 []) = true) :
    (loopBody filter f w).fs = w.fs ∧
    ((loopBody filter f w).trace = w.trace ∨
     (loopBody filter f w).trace
       = w.trace ++ [.filter ((SplitN f.Name '/' 2).getD 0 []) true]) := by
  by_cases hm : '/' ∈ f.Name
  · obtain ⟨a, b, h1, -, -⟩ := splitN_two_of_mem hm
    rw [h1] at h ⊢
    simp only [List.getD_cons_zero] at h ⊢
    rw [loopBody_of_two h1]
    by_cases h2 : b = [] ∨ HasSuffix b ['/'] = true
    · simp [h2]
    · simp [h2, h, World.log]
  · rw [loopBody_of_one (splitN_two_of_not_mem hm)]
    simp

theorem excluded_entry_changes_nothing_witness :
    excludeTest ((SplitN "test/result.xml".toList '/' 2).getD 0 []) = true ∧
    ((loopBody excludeTest ⟨"test/result.xml".toList, 0o644, zeros 120⟩
        (worldWith scenarioArchive)).fs = (worldWith scenarioArchive).fs ∧
     ((loopBody excludeTest ⟨"test/result.xml".toList, 0o644, zeros 120⟩
        (worldWith scenarioArchive)).trace = (worldWith scenarioArchive).trace ∨
      (loopBody excludeTest ⟨"test/result.xml".toList, 0o644, zeros 120⟩
        (worldWith scenarioArchive)).trace
        = (worldWith scenarioArchive).trace
          ++ [.filter ((SplitN "test/result.xml".toList '/' 2).getD 0 []) true])) :=
  ⟨by decide, excluded_entry_changes_nothing excludeTest
    ⟨"test/result.xml".toList, 0o644, zeros 120⟩ (worldWith scenarioArchive) (by decide)⟩

/-- C6: an entry whose name ends with the separator (a directory entry, the bare
`job/` included) leaves the world exactly as it was, whatever the predicate is: no file,
no directory, and the predicate is not even called. -/
theorem directory_entry_writes_nothing (filter : Str → Bool) (f : ZipFile) (w : World)
    (h : f.Name.getLast? = some '/') : loopBody filter f w = w := by
  have hm : '/' ∈ f.Name := List.mem_of_mem_getLast? h
  obtain ⟨a, b, h1, -, h3⟩ := splitN_two_of_mem hm
  rw [loopBody_of_two h1]
  by_cases hb : b = []
  · simp [hb]
  · have : b.getLast? = some '/' := by
      rw [← h3] at h
      cases b with
      | nil => exact absurd rfl hb
      | cons c cs =>
        rw [List.getLast?_append, List.getLast?_cons_cons] at h
        cases hl : (c :: cs).getLast? with
        | none => simp at hl
        | some d => simpa [hl] using h
    simp [hasSuffix_sep.mpr this]

theorem directory_entry_writes_nothing_witness :
    "build/sub/".toList.getLast? = some '/' ∧
    loopBody (fun _ => false) ⟨"build/sub/".toList, 0o755, zeros 0⟩ (worldWith scenarioArchive)
      = worldWith scenarioArchive :=
  ⟨by decide, directory_entry_writes_nothing (fun _ => false)
    ⟨"build/sub/".toList, 0o755, zeros 0⟩ (worldWith scenarioArchive) (by decide)⟩

/-! ## the archive as a whole -/

/-- C4: when the archive at `zipPath` cannot be opened, `decompressLogsPerJob` returns
that error and leaves the world exactly as it was: the file system is untouched and the
trace gains nothing, so the predicate is never called. -/
theorem open_failure_returned (zipPath : Str) (filter : Str → Bool) (w : World) (err : Error)
    (h : w.OpenReader zipPath = .error err) :
    decompressLogsPerJob zipPath filter w = (w, some err) := by
  simp [decompressLogsPerJob, h]

theorem open_failure_returned_witness :
    (worldWith scenarioArchive).OpenReader "missing.zip".toList = .error .ENOENT ∧
    decompressLogsPerJob "missing.zip".toList excludeTest (worldWith scenarioArchive)
      = (worldWith scenarioArchive, some .ENOENT) :=
  ⟨rfl, open_failure_returned "missing.zip".toList excludeTest (worldWith scenarioArchive)
    .ENOENT rfl⟩

/-- C3: when the archive can be opened, `decompressLogsPerJob` returns no error, and
every entry of the archive, whatever happened on the entries before it, is handled by
the loop body from the world its predecessors left, the entries after it being handled
in turn from the world it leaves: no entry ends the loop. -/
theorem entry_failures_not_fatal (zipPath : Str) (filter : Str → Bool) (w : World)
    (r : List ZipFile) (h : w.OpenReader zipPath = .ok r) :
    (decompressLogsPerJob zipPath filter w).2 = none ∧
    ∀ (pre post : List ZipFile) (f : ZipFile), r = pre ++ f :: post →
      (decompressLogsPerJob zipPath filter w).1
        = rangeFile filter post (loopBody filter f (rangeFile filter pre w)) := by
  refine ⟨by simp [decompressLogsPerJob, h], ?_⟩
  intro pre post f hr
  simp [decompressLogsPerJob, h, hr, rangeFile_append, rangeFile]

theorem entry_failures_not_fatal_witness :
    faultyWorld.OpenReader "workflow_logs.zip".toList = .ok faultyArchive ∧
    ((decompressLogsPerJob "workflow_logs.zip".toList (fun _ => false) faultyWorld).2 = none ∧
     ∀ (pre post : List ZipFile) (f : ZipFile), faultyArchive = pre ++ f :: post →
      (decompressLogsPerJob "workflow_logs.zip".toList (fun _ => false) faultyWorld).1
        = rangeFile (fun _ => false) post
            (loopBody (fun _ => false) f (rangeFile (fun _ => false) pre faultyWorld))) ∧
    printed (decompressLogsPerJob "workflow_logs.zip".toList (fun _ => false)
        faultyWorld).1.trace
      = [("Error opening zipped log: %v\n", .ErrFormat),
         ("Error extracting log file: %v\n", .ErrChecksum),
         ("Error creating log file: %v\n", .ENOENT),
         ("Error creating job dir: %v\n", .EACCES)] ∧
    (decompressLogsPerJob "workflow_logs.zip".toList (fun _ => false)
        faultyWorld).1.fs "logs/d/ok.log".toList = some (.file 0o600 [4, 5, 6]) :=
  ⟨rfl, entry_failures_not_fatal "workflow_logs.zip".toList (fun _ => false)
    faultyWorld faultyArchive rfl, by decide, by decide⟩

/-- C10 (counterexample): the name `job/` contains a separator and is split into the
job name `job` and the empty file name, and the loop body never calls the predicate
for it; the same holds for `job/sub/`, whose file name ends with the separator. -/
theorem bare_job_predicate_not_called :
    '/' ∈ "job/".toList ∧
    SplitN "job/".toList '/' 2 = ["job".toList, []] ∧
    filterCalls (loopBody (fun _ => false) ⟨"job/".toList, 0o755, zeros 0⟩
      (worldWith [])).trace = [] ∧
    '/' ∈ "job/sub/".toList ∧
    SplitN "job/sub/".toList '/' 2 = ["job".toList, "sub/".toList] ∧
    filterCalls (loopBody (fun _ => false) ⟨"job/sub/".toList, 0o755, zeros 0⟩
      (worldWith [])).trace = [] := by
  decide

/-- C10 (amended): an entry name that contains a separator is split by
`SplitN(name, "/", 2)` into exactly two pieces, a job name without separator and a file
name, with `jobName/fileName` equal to the name; when the file name is not empty and
does not end with the separator the predicate is called once, on exactly that job name,
and when the file name is empty or ends with the separator the entry is skipped before
the predicate and the predicate is not called. -/
theorem split_on_first_separator (filter : Str → Bool) (f : ZipFile) (w : World)
    (h : '/' ∈ f.Name) :
    ∃ jobName fileName : Str,
      SplitN f.Name '/' 2 = [jobName, fileName] ∧
      '/' ∉ jobName ∧
      jobName ++ '/' :: fileName = f.Name ∧
      filterCalls (loopBody filter f w).trace
        = filterCalls w.trace ++
            (if fileName = [] ∨ HasSuffix fileName ['/'] = true then [] else [jobName]) := by
  obtain ⟨a, b, h1, h2, h3⟩ := splitN_two_of_mem h
  refine ⟨a, b, h1, h2, h3, ?_⟩
  rw [loopBody_of_two h1]
  by_cases hb : b = [] ∨ HasSuffix b ['/'] = true
  · simp [hb]
  · by_cases hf : filter a = true
    · simp [hb, hf, World.log, filterCalls_append, filterCalls]
    · simp [hb, hf, extract_filterCalls, World.log, filterCalls_append, filterCalls]

theorem split_on_first_separator_witness :
    '/' ∈ "/etc/passwd".toList ∧
    ∃ jobName fileName : Str,
      SplitN "/etc/passwd".toList '/' 2 = [jobName, fileName] ∧
      '/' ∉ jobName ∧
      jobName ++ '/' :: fileName = "/etc/passwd".toList ∧
      filterCalls (loopBody excludeTest ⟨"/etc/passwd".toList, 0o644, zeros 3⟩
          (worldWith scenarioArchive)).trace
        = filterCalls (worldWith scenarioArchive).trace ++
            (if fileName = [] ∨ HasSuffix fileName ['/'] = true then [] else [jobName]) :=
  ⟨by decide, split_on_first_separator excludeTest ⟨"/etc/passwd".toList, 0o644, zeros 3⟩
    (worldWith scenarioArchive) (by decide)⟩

/-! ## the scenario of the specification, run -/

set_option maxRecDepth 100000

/-- C1: on the scenario of the specification, run from a file system that holds only
the working directory and without any injected fault, the entry `build/sub/err.log`
is let through by the predicate, `logs/build` is made, but `logs/build/sub` is not:
opening the destination fails with `ENOENT`, the failure is printed, and no file is left
at `logs/build/sub/err.log`.  The sibling entry `build/output.log` is written in full. -/
theorem nested_entry_not_written :
    excludeTest "build".toList = false ∧
    (decompressLogsPerJob "workflow_logs.zip".toList excludeTest
        (worldWith scenarioArchive)).1.fs "logs/build/sub/err.log".toList = none ∧
    (decompressLogsPerJob "workflow_logs.zip".toList excludeTest
        (worldWith scenarioArchive)).1.fs "logs/build/sub".toList = none ∧
    (decompressLogsPerJob "workflow_logs.zip".toList excludeTest
        (worldWith scenarioArchive)).1.fs "logs/build".toList = some (.dir 0o755) ∧
    (decompressLogsPerJob "workflow_logs.zip".toList excludeTest
        (worldWith scenarioArchive)).1.fs "logs/build/output.log".toList
      = some (.file 0o644 (List.replicate 300 0)) ∧
    Event.Printf "Error creating log file: %v\n" .ENOENT ∈
      (decompressLogsPerJob "workflow_logs.zip".toList excludeTest
        (worldWith scenarioArchive)).1.trace := by
  decide

/-- C9: with `build` the only failed job, the closure of `main` returns false for
`build` and true for `test`; `decompressLogsPerJob` skips an entry when the closure
returns true, so the log of the failed job `build` is written under `logs/` and the log
of the other job `test` is not, the reverse of what the comments on the two `return`
statements of the closure say. -/
theorem failed_jobs_written_others_skipped :
    Contains "build".toList "build".toList = true ∧
    mainFilter ["build".toList] "build".toList = false ∧
    mainFilter ["build".toList] "test".toList = true ∧
    (decompressLogsPerJob "workflow_logs.zip".toList (mainFilter ["build".toList])
        (worldWith scenarioArchive)).1.fs "logs/build/output.log".toList
      = some (.file 0o644 (List.replicate 300 0)) ∧
    (decompressLogsPerJob "workflow_logs.zip".toList (mainFilter ["build".toList])
        (worldWith scenarioArchive)).1.fs "logs/test/result.xml".toList = none ∧
    (decompressLogsPerJob "workflow_logs.zip".toList (mainFilter ["build".toList])
        (worldWith scenarioArchive)).1.fs "logs/test".toList = none := by
  decide

/-! ## where an entry is written -/

/-- C8 (counterexample): the entry `build/../../evil.txt`, let through by the predicate,
is written to `evil.txt` in the working directory, a path that is neither `logs` nor
beneath it and at which there was nothing before. -/
theorem dotdot_entry_leaves_logs :
    SplitN "build/../../evil.txt".toList '/' 2 = ["build".toList, "../../evil.txt".toList] ∧
    destPath "build".toList "../../evil.txt".toList = "evil.txt".toList ∧
    Within "logs".toList "evil.txt".toList = false ∧
    (worldWith []).fs "evil.txt".toList = none ∧
    (loopBody (fun _ => false) ⟨"build/../../evil.txt".toList, 0o644, .ok ⟨[7], none⟩⟩
        (worldWith [])).fs "evil.txt".toList = some (.file 0o644 [7]) := by
  decide

/-- C8 (amended): for an entry that `SplitN` cuts into a job name other than `..` and a
file name without `..` element, the destination path is `logs` or lies beneath it, lies
in `logs/<jobName>` when the job name is a real element, and every path at which the
loop body changes the file system is `logs` or lies beneath it. -/
theorem dest_beneath_logs (filter : Str → Bool) (f : ZipFile) (w : World)
    (jobName fileName : Str) (hs : SplitN f.Name '/' 2 = [jobName, fileName])
    (hj : jobName ≠ ['.', '.']) (hf : ['.', '.'] ∉ splitSep fileName) :
    Within "logs".toList (destPath jobName fileName) = true ∧
    (jobName ≠ [] → jobName ≠ ['.'] →
      Within ("logs".toList ++ '/' :: jobName) (destPath jobName fileName) = true) ∧
    ∀ q : Str, (loopBody filter f w).fs q ≠ w.fs q → Within "logs".toList q = true := by
  obtain ⟨hn, -⟩ := two_parts_not_mem hs
  rw [logs_toList]
  refine ⟨dest_within_logs hn hj hf, fun h1 h2 => dest_within_jobDir hn ⟨h1, h2, hj⟩ hf, ?_⟩
  intro q hq
  rcases @loopBody_fs filter f jobName fileName hs w with h | h
  · exact absurd (by rw [h]) hq
  · rw [h] at hq
    rcases extract_change f jobName fileName (w.log (.filter jobName (filter jobName))) q
      with hc | hc | ⟨hc, -, -⟩
    · exact absurd hc hq
    · rw [hc]; exact dest_within_logs hn hj hf
    · exact prefixes_within_logs hn hj hc

theorem dest_beneath_logs_witness :
    SplitN "build/sub/err.log".toList '/' 2 = ["build".toList, "sub/err.log".toList] ∧
    "build".toList ≠ ['.', '.'] ∧ ['.', '.'] ∉ splitSep "sub/err.log".toList ∧
    Within "logs".toList (destPath "build".toList "sub/err.log".toList) = true ∧
    Within ("logs".toList ++ '/' :: "build".toList)
      (destPath "build".toList "sub/err.log".toList) = true ∧
    ∀ q : Str,
      (loopBody excludeTest ⟨"build/sub/err.log".toList, 0o644, zeros 0⟩
        (worldWith scenarioArchive)).fs q ≠ (worldWith scenarioArchive).fs q →
      Within "logs".toList q = true :=
  ⟨by decide, by decide, by decide,
    (dest_beneath_logs excludeTest ⟨"build/sub/err.log".toList, 0o644, zeros 0⟩
      (worldWith scenarioArchive) "build".toList "sub/err.log".toList
      (by decide) (by decide) (by decide)).1,
    (dest_beneath_logs excludeTest ⟨"build/sub/err.log".toList, 0o644, zeros 0⟩
      (worldWith scenarioArchive) "build".toList "sub/err.log".toList
      (by decide) (by decide) (by decide)).2.1 (by decide) (by decide),
    (dest_beneath_logs excludeTest ⟨"build/sub/err.log".toList, 0o644, zeros 0⟩
      (worldWith scenarioArchive) "build".toList "sub/err.log".toList
      (by decide) (by decide) (by decide)).2.2⟩

/-! ## two entries of one job -/

/-- C7 (counterexample): two runs without any failure in which a file of the pair is
lost.  The entries `build/a.txt` and `build/./a.txt` share the job name, are let through
and have different file names, neither ending with the separator; both are given the
destination `logs/build/a.txt`, and the file ends up with the bytes of the later entry.
And in the archive `build/a.txt`, `build/b.txt`, `build/a.txt`, the first two entries
have different cleaned file names, yet a third entry, written to the destination of the
first one after it, leaves there its own bytes. -/
theorem uncleaned_names_collide :
    SplitN "build/a.txt".toList '/' 2 = ["build".toList, "a.txt".toList] ∧
    SplitN "build/./a.txt".toList '/' 2 = ["build".toList, "./a.txt".toList] ∧
    "a.txt".toList ≠ "./a.txt".toList ∧
    HasSuffix "a.txt".toList ['/'] = false ∧ HasSuffix "./a.txt".toList ['/'] = false ∧
    destPath "build".toList "a.txt".toList = "logs/build/a.txt".toList ∧
    destPath "build".toList "./a.txt".toList = "logs/build/a.txt".toList ∧
    (loopBody (fun _ => false) ⟨"build/a.txt".toList, 0o644, .ok ⟨[1], none⟩⟩
        (worldWith [])).fs "logs/build/a.txt".toList = some (.file 0o644 [1]) ∧
    (rangeFile (fun _ => false)
        [⟨"build/a.txt".toList, 0o644, .ok ⟨[1], none⟩⟩,
         ⟨"build/./a.txt".toList, 0o644, .ok ⟨[2], none⟩⟩]
        (worldWith [])).fs "logs/build/a.txt".toList = some (.file 0o644 [2]) ∧
    printed (rangeFile (fun _ => false)
        [⟨"build/a.txt".toList, 0o644, .ok ⟨[1], none⟩⟩,
         ⟨"build/./a.txt".toList, 0o644, .ok ⟨[2], none⟩⟩]
        (worldWith [])).trace = [] ∧
    SplitN "build/b.txt".toList '/' 2 = ["build".toList, "b.txt".toList] ∧
    "a.txt".toList ≠ "b.txt".toList ∧
    (rangeFile (fun _ => false)
        [⟨"build/a.txt".toList, 0o644, .ok ⟨[1], none⟩⟩,
         ⟨"build/b.txt".toList, 0o644, .ok ⟨[2], none⟩⟩,
         ⟨"build/a.txt".toList, 0o644, .ok ⟨[3], none⟩⟩]
        (worldWith [])).fs "logs/build/a.txt".toList = some (.file 0o644 [3]) ∧
    printed (rangeFile (fun _ => false)
        [⟨"build/a.txt".toList, 0o644, .ok ⟨[1], none⟩⟩,
         ⟨"build/b.txt".toList, 0o644, .ok ⟨[2], none⟩⟩,
         ⟨"build/a.txt".toList, 0o644, .ok ⟨[3], none⟩⟩]
        (worldWith [])).trace = [] := by
  decide

/-- C7 (amended): two entries of one job that the predicate lets through, whose file
names differ and are in cleaned form (every element real), get different destination
paths, so that handling the later entry, in whatever world, leaves unchanged a file that
sits at the destination of the earlier one.  And on every archive in which the two
entries occur, after a run of `decompressLogsPerJob` without failure (one that prints no
diagnostic) in which no entry after the earlier one is written to its destination,
apart from the later one, and no entry after the later one is written to the
destination of the later one, both entries have been opened and read to the end and
both destinations hold the bytes of their own entry. -/
theorem same_job_entries_kept_apart (filter : Str → Bool) (f1 f2 : ZipFile)
    (jobName n1 n2 : Str)
    (hs1 : SplitN f1.Name '/' 2 = [jobName, n1]) (hs2 : SplitN f2.Name '/' 2 = [jobName, n2])
    (hx : filter jobName = false)
    (hr1 : ∀ e ∈ splitSep n1, realElem e) (hr2 : ∀ e ∈ splitSep n2, realElem e)
    (hne : n1 ≠ n2) :
    destPath jobName n1 ≠ destPath jobName n2 ∧
    (∀ (w : World) (m : Nat) (d : List Nat),
      w.fs (destPath jobName n1) = some (.file m d) →
      (loopBody filter f2 w).fs (destPath jobName n1) = some (.file m d)) ∧
    (∀ (w : World) (zipPath : Str) (pre mid post : List ZipFile),
      w.OpenReader zipPath = .ok (pre ++ f1 :: mid ++ f2 :: post) →
      printed (decompressLogsPerJob zipPath filter w).1.trace = printed w.trace →
      (∀ g ∈ mid ++ post, target filter g ≠ some (destPath jobName n1)) →
      (∀ g ∈ post, target filter g ≠ some (destPath jobName n2)) →
      ∃ (m1 m2 : Nat) (rc1 rc2 : Stream),
        f1.Open = .ok rc1 ∧ rc1.err = none ∧ f2.Open = .ok rc2 ∧ rc2.err = none ∧
        (decompressLogsPerJob zipPath filter w).1.fs (destPath jobName n1)
          = some (.file m1 rc1.data) ∧
        (decompressLogsPerJob zipPath filter w).1.fs (destPath jobName n2)
          = some (.file m2 rc2.data)) := by
  obtain ⟨hj, -⟩ := two_parts_not_mem hs1
  have hdne := destPath_injective hj hr1 hr2 hne
  have keep : ∀ (w : World) (m : Nat) (d : List Nat),
      w.fs (destPath jobName n1) = some (.file m d) →
      (loopBody filter f2 w).fs (destPath jobName n1) = some (.file m d) := by
    intro w m d h
    rw [loopBody_extract hs2 hx hr2 w]
    exact extract_keeps_file hdne (by rw [log_fs]; exact h)
  refine ⟨hdne, keep, ?_⟩
  intro w zipPath pre mid post hopen hquiet hmid hpost
  have hrun : (decompressLogsPerJob zipPath filter w).1
      = rangeFile filter post (loopBody filter f2 (rangeFile filter mid
          (loopBody filter f1 (rangeFile filter pre w)))) := by
    simp [decompressLogsPerJob, hopen, rangeFile_append, rangeFile]
  have hq : printed (rangeFile filter (pre ++ f1 :: (mid ++ f2 :: post)) w).trace
      = printed w.trace := by
    simpa [decompressLogsPerJob, hopen] using hquiet
  obtain ⟨-, hq1⟩ := quiet_append hq
  obtain ⟨hqf1, hq2⟩ := quiet_cons hq1
  obtain ⟨-, hq3⟩ := quiet_append hq2
  obtain ⟨hqf2, -⟩ := quiet_cons hq3
  have plog : ∀ v : World, printed (v.log (.filter jobName false)).trace = printed v.trace := by
    intro v
    simp [World.log, printed_append, printed]
  rw [loopBody_extract hs1 hx hr1, ← plog (rangeFile filter pre w)] at hqf1
  obtain ⟨m1, rc1, ho1, he1, hw1⟩ := extract_quiet hqf1
  rw [← loopBody_extract hs1 hx hr1] at hw1
  have hw1' := rangeFile_keeps_file (r := mid)
    (fun g hg => hmid g (List.mem_append_left _ hg)) hw1
  rw [loopBody_extract hs2 hx hr2, ← plog (rangeFile filter mid _)] at hqf2
  obtain ⟨m2, rc2, ho2, he2, hw2⟩ := extract_quiet hqf2
  rw [← loopBody_extract hs2 hx hr2] at hw2
  have hw1'' := keep _ m1 rc1.data hw1'
  refine ⟨m1, m2, rc1, rc2, ho1, he1, ho2, he2, ?_, ?_⟩
  · rw [hrun]
    exact rangeFile_keeps_file (fun g hg => hmid g (List.mem_append_right _ hg)) hw1''
  · rw [hrun]
    exact rangeFile_keeps_file hpost hw2

theorem same_job_entries_kept_apart_witness :
    SplitN "/a.txt".toList '/' 2 = [[], "a.txt".toList] ∧
    SplitN "/b.txt".toList '/' 2 = [[], "b.txt".toList] ∧
    "a.txt".toList ≠ "b.txt".toList ∧
    (worldWith pairArchive).OpenReader "workflow_logs.zip".toList = .ok pairArchive ∧
    printed (decompressLogsPerJob "workflow_logs.zip".toList (fun _ => false)
      (worldWith pairArchive)).1.trace = printed (worldWith pairArchive).trace ∧
    destPath [] "a.txt".toList ≠ destPath [] "b.txt".toList ∧
    ∃ (m1 m2 : Nat) (rc1 rc2 : Stream),
      (Except.ok ⟨[1], none⟩ : Except Error Stream) = .ok rc1 ∧ rc1.err = none ∧
      (Except.ok ⟨[2, 3], none⟩ : Except Error Stream) = .ok rc2 ∧ rc2.err = none ∧
      (decompressLogsPerJob "workflow_logs.zip".toList (fun _ => false)
          (worldWith pairArchive)).1.fs (destPath [] "a.txt".toList)
        = some (.file m1 rc1.data) ∧
      (decompressLogsPerJob "workflow_logs.zip".toList (fun _ => false)
          (worldWith pairArchive)).1.fs (destPath [] "b.txt".toList)
        = some (.file m2 rc2.data) :=
  ⟨by decide, by decide, by decide, rfl, by decide,
    (same_job_entries_kept_apart (fun _ => false)
      ⟨"/a.txt".toList, 0o644, .ok ⟨[1], none⟩⟩ ⟨"/b.txt".toList, 0o600, .ok ⟨[2, 3], none⟩⟩
      [] "a.txt".toList "b.txt".toList
      (by decide) (by decide) rfl (by decide) (by decide) (by decide)).1,
    (same_job_entries_kept_apart (fun _ => false)
      ⟨"/a.txt".toList, 0o644, .ok ⟨[1], none⟩⟩ ⟨"/b.txt".toList, 0o600, .ok ⟨[2, 3], none⟩⟩
      [] "a.txt".toList "b.txt".toList
      (by decide) (by decide) rfl (by decide) (by decide) (by decide)).2.2
      (worldWith pairArchive) "workflow_logs.zip".toList []
      [⟨"other/x.log".toList, 0o644, .ok ⟨[9], none⟩⟩]
      [⟨"summary.json".toList, 0o644, zeros 17⟩]
      rfl (by decide) (by decide) (by decide)⟩

end ArtifactsDownloader
